import Mathlib

/-!
Verification development for the blitz-frost/log repository.

The Go source is shallowly embedded:
- Package `log` (line-oriented text backend): `Entry`, `Entries`, `EntriesGiver`,
  `lineBuffer`, `lineEntries`, `lineCore.Format`, `LevelString`, `LogError`.
- Package `logger` (ordered async pipeline): `Data`, and the concurrent behaviour
  of `T.Log` / `T.run` / `T.write` / `T.Close` as a small-step transition relation.
- Package `gcp` (structured JSON backend): `buffer.appendEntry` et al.

Go interface values of type `any` / `EntriesGiver` are modelled by closed inductive
types `Value` / `Giver` covering the implementations present in the repository
(plain scalars, plain errors, opaque values whose JSON encoding fails, entry
slices, single entries, and the two preformatted-entries types).
-/

set_option maxRecDepth 8000

namespace BlitzLog

/-- Embeds `lineBuffer` (package log): `data` holds formatted lines, `ends` the
line end indices, `space` the current indentation prefix. Bytes are modelled as
`List Char`. -/
structure lineBuffer where
  data : List Char
  ends : List Nat
  space : List Char
deriving Repr, DecidableEq

mutual

/-- Embeds the dynamic type of Go `any` values stored in `Entry.Value`, covering
the value kinds the repository handles: integers and strings (default `fmt`
formatting), plain `error` values (carrying their `Error()` string), opaque
scalars whose JSON marshalling fails (carrying their `fmt` representation and
the marshalling error message), and nested `EntriesGiver` values. -/
inductive Value where
  | vInt : Int → Value
  | vStr : String → Value
  | vErr : String → Value
  | vOpaque : String → String → Value
  | vGiver : Giver → Value

/-- Embeds the Go `EntriesGiver` interface, closed over the implementations in
the repository: `Entries` slices, single `Entry` values, the line-preformatted
`lineEntries` (src entries plus a cached `lineBuffer`), and the gcp-preformatted
`entries` (src entries plus cached JSON bytes). -/
inductive Giver where
  | gEntries : List Entry → Giver
  | gEntry : Entry → Giver
  | gLineE : List Entry → lineBuffer → Giver
  | gGcpE : List Entry → List Char → Giver

/-- Embeds `logger.Entry`: a key and an arbitrary value. -/
inductive Entry where
  | mk : String → Value → Entry

end

/-- Key accessor of `Entry`. -/
def Entry.Key : Entry → String
  | .mk k _ => k

/-- Value accessor of `Entry`. -/
def Entry.Val : Entry → Value
  | .mk _ v => v

/-- Embeds the `Entries()` method of each `EntriesGiver` implementation:
`Entries.Entries` returns the slice itself, `Entry.Entries` wraps the entry in a
one-element slice, `lineEntries.Entries` and the gcp `entries.Entries` return
the stored `src` field. -/
def Giver.Entries : Giver → List Entry
  | .gEntries l => l
  | .gEntry e => [e]
  | .gLineE src _ => src
  | .gGcpE src _ => src

/-- Embeds the predefined level constants (iota block in package log). -/
def Default : Int := 0

def Debug : Int := 1

def Info : Int := 2

def Notice : Int := 3

def Warning : Int := 4

def Error : Int := 5

def Critical : Int := 6

def Alert : Int := 7

def Emergency : Int := 8

/-- Embeds `LevelString` (package log): the switch over the nine predefined
levels, returning "" for any other level. -/
def LevelString (lvl : Int) : String :=
  if lvl = 0 then "DEFAULT"
  else if lvl = 1 then "DEBUG"
  else if lvl = 2 then "INFO"
  else if lvl = 3 then "NOTICE"
  else if lvl = 4 then "WARNING"
  else if lvl = 5 then "ERROR"
  else if lvl = 6 then "CRITICAL"
  else if lvl = 7 then "ALERT"
  else if lvl = 8 then "EMERGENCY"
  else ""

/-- Embeds the default `fmt.Append` value formatting used by `lineBuffer`:
integers print in decimal, strings print verbatim, error values print their
`Error()` string, other scalars print their `fmt` representation. The `vGiver`
case is unreachable (`appendEntry` dispatches givers before default
formatting). -/
def lineValueFmt : Value → String
  | .vInt n => toString n
  | .vStr s => s
  | .vErr msg => msg
  | .vOpaque fmtRepr _ => fmtRepr
  | .vGiver _ => ""

/-- Embeds `lineBuffer.endLine`: append a newline, record the line end index. -/
def lineBuffer.endLine (x : lineBuffer) : lineBuffer :=
  { x with data := x.data ++ ['\n'], ends := x.ends ++ [x.data.length + 1] }

/-- Embeds the loop in the preformatted branch of `lineBuffer.append`: for each
cached line end, copy the cached bytes `d[start:end]` prefixed by the current
indentation, and record the new line end. -/
def spliceGo (d : List Char) (x : lineBuffer) (start : Nat) : List Nat → lineBuffer
  | [] => x
  | e :: rest =>
      let newData := x.data ++ x.space ++ ((d.take e).drop start)
      spliceGo d { x with data := newData, ends := x.ends ++ [newData.length] } e rest

mutual

/-- Embeds `lineBuffer.append`: the `lineEntries` type assertion selects the
splice path; otherwise loop `appendEntry` over `e.Entries()` (for a single
`Entry` giver that loop is one `appendEntry` call). -/
def lineBuffer.append (x : lineBuffer) (g : Giver) : lineBuffer :=
  match g with
  | .gLineE _ buf => spliceGo buf.data x 0 buf.ends
  | .gEntries l => lineBuffer.appendEntries x l
  | .gEntry e => lineBuffer.appendEntry x e
  | .gGcpE src _ => lineBuffer.appendEntries x src

/-- The `for _, entry := range e.Entries()` loop body of `lineBuffer.append`. -/
def lineBuffer.appendEntries (x : lineBuffer) : List Entry → lineBuffer
  | [] => x
  | e :: rest => lineBuffer.appendEntries (lineBuffer.appendEntry x e) rest

/-- Embeds `lineBuffer.appendEntry`: emit indentation and the key; a nested
`EntriesGiver` value ends the key line, grows the indentation by two spaces,
recursively appends the sub-block, then restores the indentation; any other
value is emitted after a " - " separator using default formatting. -/
def lineBuffer.appendEntry (x : lineBuffer) (e : Entry) : lineBuffer :=
  match e with
  | .mk key v =>
    let x1 : lineBuffer := { x with data := x.data ++ x.space ++ key.data }
    match v with
    | .vGiver sub =>
        let x2 := x1.endLine
        let x3 := lineBuffer.append { x2 with space := x2.space ++ [' ', ' '] } sub
        { x3 with space := x3.space.take (x3.space.length - 2) }
    | v =>
        ({ x1 with data := x1.data ++ [' ', '-', ' '] ++ (lineValueFmt v).data }).endLine

end

/-- Embeds `lineEntries` (package log): the preformatted entries type used by
`LineLogger`, pairing the snapshotted source entries with a cached buffer. -/
structure lineEntries where
  src : List Entry
  buf : lineBuffer

/-- A `lineEntries` value viewed back as an `EntriesGiver`. -/
def Giver.ofLineEntries (le : lineEntries) : Giver :=
  .gLineE le.src le.buf

/-- Embeds `lineEntriesMake`: an input that is already a `lineEntries` is
returned unchanged; otherwise the source entries are snapshotted and rendered
into a fresh zero-valued `lineBuffer` via `appendEntry`. -/
def lineEntriesMake (src : Giver) : lineEntries :=
  match src with
  | .gLineE s b => ⟨s, b⟩
  | src =>
      let entries := src.Entries
      ⟨entries, lineBuffer.appendEntries ⟨[], [], []⟩ entries⟩

/-- Embeds `LineLogger.Preformat`, which returns `lineEntriesMake e` as an
`EntriesGiver`. -/
def LineLoggerPreformat (g : Giver) : Giver :=
  Giver.ofLineEntries (lineEntriesMake g)

/-- Embeds `logger.Data`: the snapshotted submission transferred between
goroutines. `Entries` holds one `Entries` snapshot per caller-supplied
entry-source. -/
structure Data where
  Level : Int
  Message : String
  Entries : List (List Entry)

/-- Embeds `lineCore.Format`: header line (level string, two spaces, message),
then each snapshot appended through a fresh `lineBuffer`, then a trailing blank
line. The header and trailer are appended directly to `data` (no line end is
recorded for them). -/
def lineCore.Format (d : Data) : List Char :=
  let buf0 : lineBuffer :=
    { data := (LevelString d.Level).data ++ [' ', ' '] ++ d.Message.data ++ ['\n'],
      ends := [], space := [] }
  let buf1 := d.Entries.foldl (fun b es => b.append (Giver.gEntries es)) buf0
  buf1.data ++ ['\n']

/-! ### Specification-level characterization of the line renderer

`entryLines e` is the list of logical output lines (without outer indentation)
that `appendEntry` emits for `e`; `renderData`/`renderEnds` describe how a
buffer grows when a list of such lines is emitted at a given indentation. -/

/-- The bytes appended when each line of `lines` is emitted prefixed by
`space`. -/
def renderData (space : List Char) (lines : List (List Char)) : List Char :=
  (lines.map (fun l => space ++ l)).flatten

/-- The line end indices recorded when each line of `lines` is emitted prefixed
by `space`, starting from absolute offset `base`. -/
def renderEnds (base : Nat) (space : List Char) : List (List Char) → List Nat
  | [] => []
  | l :: rest =>
      (base + space.length + l.length) :: renderEnds (base + space.length + l.length) space rest

/-- The segments of `d` delimited by the index list `ends`, starting at
`start`; this is what the splice loop of `lineBuffer.append` copies. -/
def segs (d : List Char) (start : Nat) : List Nat → List (List Char)
  | [] => []
  | e :: rest => ((d.take e).drop start) :: segs d e rest

mutual

/-- The logical output lines of a single entry: a key-only line followed by a
one-unit-deeper sub-block for nested givers, or a single `key - value` line. -/
def entryLines (e : Entry) : List (List Char) :=
  match e with
  | .mk key v =>
    match v with
    | .vGiver sub => (key.data ++ ['\n']) :: (giverLines sub).map (fun l => [' ', ' '] ++ l)
    | v => [key.data ++ [' ', '-', ' '] ++ (lineValueFmt v).data ++ ['\n']]

/-- The logical output lines of a giver, as emitted by `lineBuffer.append`: a
preformatted `lineEntries` contributes its cached segments verbatim, all other
givers contribute the lines of their entries. -/
def giverLines (g : Giver) : List (List Char) :=
  match g with
  | .gLineE _ buf => segs buf.data 0 buf.ends
  | .gEntries l => entriesLines l
  | .gEntry e => entryLines e
  | .gGcpE src _ => entriesLines src

/-- The concatenated logical output lines of a list of entries. -/
def entriesLines : List Entry → List (List Char)
  | [] => []
  | e :: rest => entryLines e ++ entriesLines rest

end

/-- The logical output lines of one whole `Data` (all snapshots in order). -/
def dataLines : List (List Entry) → List (List Char)
  | [] => []
  | es :: rest => entriesLines es ++ dataLines rest

/-- A canonical nesting chain of depth `D`: `D` nested single-entry blocks with
key "node", with a leaf entry `{"leaf", 7}` at the innermost level. -/
def nestChain : Nat → Entry
  | 0 => .mk "leaf" (.vInt 7)
  | n + 1 => .mk "node" (.vGiver (.gEntries [nestChain n]))

/-! ### Package log call surface -/

/-- Embeds the synchronous snapshot step of `T.Log` (logger.go lines 83-95):
the queued `Data` carries `e[i].Entries()` for each supplied entry-source, in
the order given. -/
def TLog (lvl : Int) (msg : String) (e : List Giver) : Data :=
  { Level := lvl, Message := msg, Entries := e.map Giver.Entries }

/-- Embeds `LogError` (package log): a Go `Logger` is modelled by its `Log`
method; `LogError` appends `Entry{"err", err}` to the entry-source list and
calls `x.Log`. -/
def LogError {α : Type} (logMethod : Int → String → List Giver → α)
    (lvl : Int) (msg : String) (err : Value) (e : List Giver) : α :=
  logMethod lvl msg (e ++ [Giver.gEntry (Entry.mk "err" err)])

/-! ### Package gcp: the structured (JSON) backend -/

/-- The diagnostic prefix the gcp formatter puts in front of a JSON
marshalling error message. -/
def logErrPrefix : String := "LOG ERROR: "

/-- Lower-case hexadecimal digit. -/
def hexDigit (n : Nat) : Char :=
  if n < 10 then Char.ofNat (48 + n) else Char.ofNat (87 + n)

/-- Models the per-character escaping of `encoding/json` string marshalling
(with Go's default HTML escaping of angle brackets and ampersands). -/
def jsonEscapeChar (c : Char) : List Char :=
  if c = '"' then ['\\', '"']
  else if c = '\\' then ['\\', '\\']
  else if c = '\n' then ['\\', 'n']
  else if c = '\r' then ['\\', 'r']
  else if c = '\t' then ['\\', 't']
  else if c = '<' then ['\\', 'u', '0', '0', '3', 'c']
  else if c = '>' then ['\\', 'u', '0', '0', '3', 'e']
  else if c = '&' then ['\\', 'u', '0', '0', '2', '6']
  else if c.toNat < 32 then ['\\', 'u', '0', '0', hexDigit (c.toNat / 16), hexDigit (c.toNat % 16)]
  else [c]

/-- Models `json.Marshal` applied to a Go string (never fails). -/
def jsonQuote (s : String) : List Char :=
  '"' :: s.data.flatMap jsonEscapeChar ++ ['"']

/-- Embeds the gcp `buffer.end` method: if the last byte is not an opening
brace, the trailing comma is overwritten with a closing brace; an empty object
is closed by appending one. (In the source the buffer is never empty here,
since `end` always follows `start`.) -/
def gcpEnd (x : List Char) : List Char :=
  if x.getLast? = some '{' then x ++ ['}'] else x.dropLast ++ ['}']

mutual

/-- Embeds the gcp `buffer.append`: preformatted gcp `entries` are copied
verbatim; any other giver has its `Entries()` looped through `appendEntry`. -/
def gcpAppend (x : List Char) (g : Giver) : List Char :=
  match g with
  | .gGcpE _ buf => x ++ buf
  | .gEntries l => gcpAppendEntries x l
  | .gEntry e => gcpAppendEntry x e
  | .gLineE src _ => gcpAppendEntries x src

/-- The `for _, entry := range e.Entries()` loop body of gcp `buffer.append`. -/
def gcpAppendEntries (x : List Char) : List Entry → List Char
  | [] => x
  | e :: rest => gcpAppendEntries (gcpAppendEntry x e) rest

/-- Embeds the gcp `buffer.appendEntry`: marshal the key, then a colon; a
nested giver becomes a brace-delimited object; an error value marshals its
`Error()` string; a scalar marshals via `json.Marshal` — integers and strings
succeed, while a value whose marshalling fails (`vOpaque`) is replaced by the
marshalling error prefixed with "LOG ERROR: " (the `err != nil` branch); a
trailing comma is always appended. -/
def gcpAppendEntry (x : List Char) (e : Entry) : List Char :=
  match e with
  | .mk key v =>
    let x1 := x ++ jsonQuote key ++ [':']
    let x2 := match v with
      | .vGiver sub => gcpEnd (gcpAppend (x1 ++ ['{']) sub)
      | .vErr m => x1 ++ jsonQuote m
      | .vInt n => x1 ++ (toString n).data
      | .vStr s => x1 ++ jsonQuote s
      | .vOpaque _ errMsg => x1 ++ jsonQuote (logErrPrefix ++ errMsg)
    x2 ++ [',']

end

mutual

/-- The bytes `gcpAppendEntry` contributes, independent of the buffer so far. -/
def gcpEntryBytes (e : Entry) : List Char :=
  match e with
  | .mk key v =>
    jsonQuote key ++ [':'] ++
      (match v with
       | .vGiver sub => gcpEnd ('{' :: gcpGiverBytes sub)
       | .vErr m => jsonQuote m
       | .vInt n => (toString n).data
       | .vStr s => jsonQuote s
       | .vOpaque _ errMsg => jsonQuote (logErrPrefix ++ errMsg)) ++ [',']

/-- The bytes `gcpAppend` contributes, independent of the buffer so far. -/
def gcpGiverBytes (g : Giver) : List Char :=
  match g with
  | .gGcpE _ buf => buf
  | .gEntries l => gcpEntriesBytes l
  | .gEntry e => gcpEntryBytes e
  | .gLineE src _ => gcpEntriesBytes src

/-- The bytes the `appendEntry` loop contributes over a list of entries. -/
def gcpEntriesBytes : List Entry → List Char
  | [] => []
  | e :: rest => gcpEntryBytes e ++ gcpEntriesBytes rest

end

/-- Embeds the payload construction of the gcp `core.Format`: start an object,
append a `{"msg", message}` entry, append every snapshot, close the object.
(The severity mapping of the produced `logging.Entry` is not modelled.) -/
def gcpFormat (d : Data) : List Char :=
  let b0 := gcpAppend ['{'] (Giver.gEntry (Entry.mk "msg" (Value.vStr d.Message)))
  let b1 := d.Entries.foldl (fun b es => gcpAppend b (Giver.gEntries es)) b0
  gcpEnd b1

/-! ### Package logger: the ordered asynchronous pipeline

The concurrent behaviour of `logger.T` (goroutines `run` and `write`, channels
`dataChan`, `writeChan`, the per-submission result channels, and `Close`) is
embedded as a small-step transition relation over an explicit state:

- `submitted` records every accepted submission, in the order the `Log` calls
  completed their channel send (the channel serializes concurrent senders).
- `dataChan` is the queue of submissions not yet taken by the `run` goroutine.
  Go's buffer capacity of 8 only makes senders block; it does not affect order,
  so the queue is modelled unbounded.
- `writeChan` is the FIFO of per-submission delivery handles, each a pair of
  the dispatched `Data` and a flag telling whether its formatting goroutine has
  finished (the unbuffered result channel is ready to be received from).
- `written` is the sequence of arguments passed to the backend `Core.Write`.
- `dataClosed` models `close(dataChan)` (the first action of `T.Close`; a later
  `Log` call would panic, so no `log` transition is possible afterwards),
  `writeChanClosed` models `close(writeChan)` (the `run` goroutine exiting),
  `done` models `close(done)` (the `write` goroutine exiting), and `coreClosed`
  models the `Core.Close()` call at the end of `T.Close`. -/
structure PState (Raw : Type) where
  submitted : List Data
  dataChan : List Data
  writeChan : List (Data × Bool)
  written : List Raw
  dataClosed : Bool
  writeChanClosed : Bool
  done : Bool
  coreClosed : Bool

/-- The state change of one completed `T.Log` call: the snapshotted `Data` is
appended to the submission order and to `dataChan`. -/
def logStep {Raw : Type} (s : PState Raw) (lvl : Int) (msg : String) (e : List Giver) :
    PState Raw :=
  { s with submitted := s.submitted ++ [TLog lvl msg e],
           dataChan := s.dataChan ++ [TLog lvl msg e] }

/-- One interleaving step of the pipeline, for a backend formatting function
`fmt` (the `Core.Format` of the instantiated `T`). -/
inductive Step {Raw : Type} (fmt : Data → Raw) : PState Raw → PState Raw → Prop where
  | log (s : PState Raw) (lvl : Int) (msg : String) (e : List Giver) :
      s.dataClosed = false → Step fmt s (logStep s lvl msg e)
  | dispatch (s : PState Raw) (d : Data) (rest : List Data) :
      s.dataChan = d :: rest →
      Step fmt s { s with dataChan := rest, writeChan := s.writeChan ++ [(d, false)] }
  | formatDone (s : PState Raw) (pre : List (Data × Bool)) (d : Data) (post : List (Data × Bool)) :
      s.writeChan = pre ++ (d, false) :: post →
      Step fmt s { s with writeChan := pre ++ (d, true) :: post }
  | writeStep (s : PState Raw) (d : Data) (rest : List (Data × Bool)) :
      s.writeChan = (d, true) :: rest →
      Step fmt s { s with writeChan := rest, written := s.written ++ [fmt d] }
  | closeData (s : PState Raw) :
      s.dataClosed = false → Step fmt s { s with dataClosed := true }
  | runExit (s : PState Raw) :
      s.dataClosed = true → s.dataChan = [] → s.writeChanClosed = false →
      Step fmt s { s with writeChanClosed := true }
  | writeExit (s : PState Raw) :
      s.writeChanClosed = true → s.writeChan = [] → s.done = false →
      Step fmt s { s with done := true }
  | closeCore (s : PState Raw) :
      s.done = true → s.coreClosed = false → Step fmt s { s with coreClosed := true }

/-- The state of a freshly constructed pipeline (`logger.Make`). -/
def initState (Raw : Type) : PState Raw :=
  ⟨[], [], [], [], false, false, false, false⟩

/-- States the pipeline can reach from construction under any interleaving. -/
def Reachable {Raw : Type} (fmt : Data → Raw) (s : PState Raw) : Prop :=
  Relation.ReflTransGen (Step fmt) (initState Raw) s

/-- The pipeline invariant: the submissions are exactly the written prefix
followed by the in-flight handles followed by the queued submissions, and the
writes so far are that prefix's formatted records in order; the shutdown flags
are causally ordered. -/
def Inv {Raw : Type} (fmt : Data → Raw) (s : PState Raw) : Prop :=
  (∃ w : List Data,
      s.submitted = w ++ s.writeChan.map Prod.fst ++ s.dataChan ∧ s.written = w.map fmt)
  ∧ (s.writeChanClosed = true → s.dataClosed = true ∧ s.dataChan = [])
  ∧ (s.done = true → s.writeChanClosed = true ∧ s.writeChan = [])
  ∧ (s.coreClosed = true → s.done = true)

/-- A concrete submission used to exercise the pipeline relation. -/
def exData : Data := ⟨2, "m", []⟩

/-- A concrete formatting function used to exercise the pipeline relation. -/
def exFmt : Data → Int := fun d => d.Level

/-- Intermediate states of one concrete pipeline run. -/
def st0 : PState Int := initState Int

def st1 : PState Int := ⟨[exData], [exData], [], [], false, false, false, false⟩

def st2 : PState Int := ⟨[exData], [], [(exData, false)], [], false, false, false, false⟩

def st3 : PState Int := ⟨[exData], [], [(exData, true)], [], false, false, false, false⟩

def st4 : PState Int := ⟨[exData], [], [], [2], false, false, false, false⟩

def st5 : PState Int := ⟨[exData], [], [], [2], true, false, false, false⟩

def st6 : PState Int := ⟨[exData], [], [], [2], true, true, false, false⟩

def st7 : PState Int := ⟨[exData], [], [], [2], true, true, true, false⟩

def st8 : PState Int := ⟨[exData], [], [], [2], true, true, true, true⟩

/-- Two buffers with equal components are equal. -/
theorem lineBuffer.eq_of (a b : lineBuffer) (h1 : a.data = b.data) (h2 : a.ends = b.ends)
    (h3 : a.space = b.space) : a = b := by
  cases a
  cases b
  simp_all

theorem renderData_nil (s : List Char) : renderData s [] = [] := rfl

theorem renderData_cons (s l : List Char) (ls : List (List Char)) :
    renderData s (l :: ls) = s ++ l ++ renderData s ls := by
  simp [renderData]

theorem renderData_append (s : List Char) (ls₁ ls₂ : List (List Char)) :
    renderData s (ls₁ ++ ls₂) = renderData s ls₁ ++ renderData s ls₂ := by
  simp [renderData]

theorem renderData_indent (s u : List Char) (ls : List (List Char)) :
    renderData s (ls.map (fun l => u ++ l)) = renderData (s ++ u) ls := by
  simp [renderData, List.map_map, Function.comp_def, List.append_assoc]

theorem length_renderData (s : List Char) (l : List Char) (ls : List (List Char)) :
    (renderData s (l :: ls)).length = s.length + l.length + (renderData s ls).length := by
  simp [renderData_cons]
  omega

theorem renderEnds_nil (base : Nat) (s : List Char) : renderEnds base s [] = [] := rfl

theorem renderEnds_cons (base : Nat) (s l : List Char) (ls : List (List Char)) :
    renderEnds base s (l :: ls)
      = (base + s.length + l.length) :: renderEnds (base + s.length + l.length) s ls := rfl

theorem renderEnds_base (s : List Char) (ls : List (List Char)) {b₁ b₂ : Nat} (h : b₁ = b₂) :
    renderEnds b₁ s ls = renderEnds b₂ s ls := by
  rw [h]

theorem renderEnds_append (s : List Char) (ls₁ ls₂ : List (List Char)) :
    ∀ base, renderEnds base s (ls₁ ++ ls₂)
      = renderEnds base s ls₁ ++ renderEnds (base + (renderData s ls₁).length) s ls₂ := by
  induction ls₁ with
  | nil => simp [renderEnds, renderData_nil]
  | cons l ls ih =>
      intro base
      simp only [List.cons_append, renderEnds_cons, ih, List.cons_append]
      rw [length_renderData]
      rw [renderEnds_base s ls₂
        (show base + s.length + l.length + (renderData s ls).length
            = base + (s.length + l.length + (renderData s ls).length) by omega)]

theorem renderEnds_indent (s u : List Char) (ls : List (List Char)) :
    ∀ base, renderEnds base s (ls.map (fun l => u ++ l)) = renderEnds base (s ++ u) ls := by
  induction ls with
  | nil => intro base; simp [renderEnds]
  | cons l ls ih =>
      intro base
      simp only [List.map_cons, renderEnds_cons, ih, List.length_append]
      rw [show base + s.length + (u.length + l.length)
            = base + (s.length + u.length) + l.length by omega]

theorem renderData_indentCons (s : List Char) (ls : List (List Char)) :
    renderData s (ls.map (fun l => ' ' :: ' ' :: l)) = renderData (s ++ [' ', ' ']) ls :=
  renderData_indent s [' ', ' '] ls

theorem renderEnds_indentCons (s : List Char) (ls : List (List Char)) (base : Nat) :
    renderEnds base s (ls.map (fun l => ' ' :: ' ' :: l)) = renderEnds base (s ++ [' ', ' ']) ls :=
  renderEnds_indent s [' ', ' '] ls base

/-- Characterizes the splice loop: it emits exactly the segments of the cached
data at the current indentation, recording one line end per segment. -/
theorem spliceGo_eq (d : List Char) :
    ∀ (ends : List Nat) (x : lineBuffer) (start : Nat),
      spliceGo d x start ends
        = ⟨x.data ++ renderData x.space (segs d start ends),
           x.ends ++ renderEnds x.data.length x.space (segs d start ends), x.space⟩ := by
  intro ends
  induction ends with
  | nil => intro x start; simp [spliceGo, segs, renderData_nil, renderEnds]
  | cons e rest ih =>
      intro x start
      simp only [spliceGo]
      rw [ih]
      apply lineBuffer.eq_of
      · simp [segs, renderData_cons, List.append_assoc]
      · simp [segs, renderEnds_cons, List.append_assoc, List.length_append, Nat.add_assoc]
      · rfl

/-- Cutting the concatenation of `ls` (placed after a prefix `pre`) at the
cumulative line ends recovers exactly `ls`. -/
theorem segs_renderEnds (ls : List (List Char)) :
    ∀ (pre : List Char),
      segs (pre ++ ls.flatten) pre.length (renderEnds pre.length [] ls) = ls := by
  induction ls with
  | nil => intro pre; simp [segs, renderEnds]
  | cons l ls ih =>
      intro pre
      rw [renderEnds_cons]
      simp only [List.length_nil]
      rw [show pre ++ (l :: ls).flatten = (pre ++ l) ++ ls.flatten by simp]
      rw [segs, show pre.length + 0 + l.length = (pre ++ l).length by simp]
      rw [List.take_left, List.drop_left, ih (pre ++ l)]

mutual

/-- Normal form of `lineBuffer.append`: the buffer grows by the giver's lines,
each prefixed with the current indentation, with one line end per line; the
indentation is left unchanged. -/
theorem append_eq (x : lineBuffer) (g : Giver) :
    lineBuffer.append x g
      = ⟨x.data ++ renderData x.space (giverLines g),
         x.ends ++ renderEnds x.data.length x.space (giverLines g), x.space⟩ := by
  match g with
  | .gLineE src buf =>
      simp only [lineBuffer.append, giverLines]
      exact spliceGo_eq buf.data buf.ends x 0
  | .gEntries l =>
      simp only [lineBuffer.append, giverLines]
      exact appendEntries_eq x l
  | .gEntry e =>
      simp only [lineBuffer.append, giverLines]
      exact appendEntry_eq x e
  | .gGcpE src b =>
      simp only [lineBuffer.append, giverLines]
      exact appendEntries_eq x src

/-- Normal form of the `appendEntry` loop over a list of entries. -/
theorem appendEntries_eq (x : lineBuffer) (l : List Entry) :
    lineBuffer.appendEntries x l
      = ⟨x.data ++ renderData x.space (entriesLines l),
         x.ends ++ renderEnds x.data.length x.space (entriesLines l), x.space⟩ := by
  match l with
  | [] => simp [lineBuffer.appendEntries, entriesLines, renderData_nil, renderEnds]
  | e :: rest =>
      rw [lineBuffer.appendEntries, appendEntry_eq x e, appendEntries_eq _ rest]
      apply lineBuffer.eq_of
      · simp [entriesLines, renderData_append, List.append_assoc]
      · simp [entriesLines, renderEnds_append, List.append_assoc, List.length_append,
          Nat.add_assoc]
      · rfl

/-- Normal form of `lineBuffer.appendEntry`: the buffer grows by the entry's
lines, each prefixed with the current indentation; the indentation is left
unchanged. -/
theorem appendEntry_eq (x : lineBuffer) (e : Entry) :
    lineBuffer.appendEntry x e
      = ⟨x.data ++ renderData x.space (entryLines e),
         x.ends ++ renderEnds x.data.length x.space (entryLines e), x.space⟩ := by
  match e with
  | .mk key v =>
    match v with
    | .vGiver sub =>
        simp only [lineBuffer.appendEntry, lineBuffer.endLine]
        rw [append_eq]
        apply lineBuffer.eq_of
        · simp [entryLines, renderData_cons, renderData_indent, renderData_indentCons,
            List.append_assoc]
        · simp [entryLines, renderEnds_cons, renderEnds_indent, renderEnds_indentCons,
            List.append_assoc, List.length_append, Nat.add_assoc]
        · simp only []
          rw [show (x.space ++ [' ', ' ']).length - 2 = x.space.length by simp]
          exact List.take_left x.space [' ', ' ']
    | .vInt n =>
        simp only [lineBuffer.appendEntry, lineBuffer.endLine]
        apply lineBuffer.eq_of
        · simp [entryLines, renderData_cons, renderData_nil, List.append_assoc]
        · simp [entryLines, renderEnds_cons, renderEnds_nil, List.append_assoc,
            List.length_append, Nat.add_assoc]
        · rfl
    | .vStr s =>
        simp only [lineBuffer.appendEntry, lineBuffer.endLine]
        apply lineBuffer.eq_of
        · simp [entryLines, renderData_cons, renderData_nil, List.append_assoc]
        · simp [entryLines, renderEnds_cons, renderEnds_nil, List.append_assoc,
            List.length_append, Nat.add_assoc]
        · rfl
    | .vErr m =>
        simp only [lineBuffer.appendEntry, lineBuffer.endLine]
        apply lineBuffer.eq_of
        · simp [entryLines, renderData_cons, renderData_nil, List.append_assoc]
        · simp [entryLines, renderEnds_cons, renderEnds_nil, List.append_assoc,
            List.length_append, Nat.add_assoc]
        · rfl
    | .vOpaque f em =>
        simp only [lineBuffer.appendEntry, lineBuffer.endLine]
        apply lineBuffer.eq_of
        · simp [entryLines, renderData_cons, renderData_nil, List.append_assoc]
        · simp [entryLines, renderEnds_cons, renderEnds_nil, List.append_assoc,
            List.length_append, Nat.add_assoc]
        · rfl

end

theorem renderData_nilSpace (ls : List (List Char)) : renderData [] ls = ls.flatten := by
  simp [renderData]

theorem segs_flatten (ls : List (List Char)) :
    segs ls.flatten 0 (renderEnds 0 [] ls) = ls := by
  simpa using segs_renderEnds ls []

/-- The lines a preformatted giver contributes are exactly the lines of the
original giver. -/
theorem giverLines_preformat (g : Giver) :
    giverLines (LineLoggerPreformat g) = giverLines g := by
  cases g with
  | gLineE s b => rfl
  | gEntries l =>
      show giverLines (.gLineE l (lineBuffer.appendEntries ⟨[], [], []⟩ l)) = _
      rw [appendEntries_eq]
      simp only [giverLines]
      simpa [renderData_nilSpace] using segs_flatten (entriesLines l)
  | gEntry e =>
      show giverLines (.gLineE [e] (lineBuffer.appendEntries ⟨[], [], []⟩ [e])) = _
      rw [appendEntries_eq]
      simp only [giverLines]
      have h := segs_flatten (entriesLines [e])
      simp only [entriesLines] at h ⊢
      simpa [renderData_nilSpace, entriesLines] using h
  | gGcpE src b =>
      show giverLines (.gLineE src (lineBuffer.appendEntries ⟨[], [], []⟩ src)) = _
      rw [appendEntries_eq]
      simp only [giverLines]
      simpa [renderData_nilSpace] using segs_flatten (entriesLines src)

/-- The fold in `lineCore.Format` grows the buffer by all snapshots' lines. -/
theorem foldl_append_eq (ess : List (List Entry)) :
    ∀ x : lineBuffer,
      ess.foldl (fun b es => b.append (Giver.gEntries es)) x
        = ⟨x.data ++ renderData x.space (dataLines ess),
           x.ends ++ renderEnds x.data.length x.space (dataLines ess), x.space⟩ := by
  induction ess with
  | nil => intro x; simp [dataLines, renderData_nil, renderEnds_nil]
  | cons es rest ih =>
      intro x
      rw [List.foldl_cons, append_eq, ih]
      apply lineBuffer.eq_of
      · simp [dataLines, giverLines, renderData_append, List.append_assoc]
      · simp [dataLines, giverLines, renderEnds_append, List.append_assoc,
          List.length_append, Nat.add_assoc]
      · rfl

/-- Closed form of `lineCore.Format`: header, one indented line per logical
line of the snapshots, trailing blank line. -/
theorem format_eq (d : Data) :
    lineCore.Format d
      = (LevelString d.Level).data ++ [' ', ' '] ++ d.Message.data ++ ['\n']
        ++ (dataLines d.Entries).flatten ++ ['\n'] := by
  simp only [lineCore.Format]
  rw [foldl_append_eq]
  simp [renderData_nilSpace, List.append_assoc]

/-- C3: rendering an `EntriesGiver` through the preformatted path (a cached
`lineEntries` whose lines are spliced in with per-line re-indentation)
produces a buffer identical — data bytes, line ends and indentation — to
rendering the same giver through the non-cached recursive walk, at every
nesting level (i.e. for every current buffer and indentation). -/
theorem preformatted_render_byte_identical (x : lineBuffer) (g : Giver) :
    lineBuffer.append x (LineLoggerPreformat g) = lineBuffer.append x g := by
  rw [append_eq, append_eq, giverLines_preformat]

/-- C9: `LineLogger.Preformat` is idempotent — preformatting an already
preformatted value returns it unchanged, so `Preformat ∘ Preformat =
Preformat` — and the preformatted value's `Entries()` returns exactly the
entry sequence snapshotted from the source at preformat time. -/
theorem preformat_idempotent (g : Giver) :
    LineLoggerPreformat (LineLoggerPreformat g) = LineLoggerPreformat g
    ∧ (LineLoggerPreformat g).Entries = g.Entries := by
  cases g <;>
    simp [LineLoggerPreformat, lineEntriesMake, Giver.ofLineEntries, Giver.Entries]

/-- C4: on the text backend, a submission at level `Info` with message "start"
and single leaf entry `{"count", 3}` formats to exactly
"INFO  start\ncount - 3\n\n", and one at level `Error` with message "fail" and
leaf entry `{"reason", "x"}` formats to exactly "ERROR  fail\nreason - x\n\n":
uppercase level name, two spaces, message, then one "key - value" line per
leaf entry, then a trailing blank line. -/
theorem text_format_examples :
    lineCore.Format ⟨Info, "start", [[Entry.mk "count" (Value.vInt 3)]]⟩
        = "INFO  start\ncount - 3\n\n".data
    ∧ lineCore.Format ⟨Error, "fail", [[Entry.mk "reason" (Value.vStr "x")]]⟩
        = "ERROR  fail\nreason - x\n\n".data := by
  constructor <;> decide

/-- C10: for every integer level outside the nine predefined constants 0..8,
`LevelString` returns the empty string, so the header line of a log formatted
at an unknown level is two spaces followed by the message; for the nine
predefined levels it returns the constant's identifier in all uppercase. -/
theorem levelString_spec :
    (∀ lvl : Int, ¬ (0 ≤ lvl ∧ lvl ≤ 8) →
        LevelString lvl = ""
        ∧ ∀ (msg : String) (es : List (List Entry)),
            lineCore.Format ⟨lvl, msg, es⟩
              = [' ', ' '] ++ msg.data ++ ['\n'] ++ (dataLines es).flatten ++ ['\n'])
    ∧ LevelString Default = "DEFAULT"
    ∧ LevelString Debug = "DEBUG"
    ∧ LevelString Info = "INFO"
    ∧ LevelString Notice = "NOTICE"
    ∧ LevelString Warning = "WARNING"
    ∧ LevelString Error = "ERROR"
    ∧ LevelString Critical = "CRITICAL"
    ∧ LevelString Alert = "ALERT"
    ∧ LevelString Emergency = "EMERGENCY" := by
  constructor
  · intro lvl h
    have h0 : LevelString lvl = "" := by
      unfold LevelString
      split_ifs <;> first | rfl | omega
    refine ⟨h0, fun msg es => ?_⟩
    have he : ("" : String).data = [] := rfl
    simp [format_eq, h0, he]
  · decide

/-- Witness for levelString_spec at the concrete unknown level 9. -/
theorem levelString_spec_witness :
    (¬ (0 ≤ (9 : Int) ∧ (9 : Int) ≤ 8))
    ∧ LevelString 9 = ""
    ∧ lineCore.Format ⟨9, "up", []⟩
        = [' ', ' '] ++ "up".data ++ ['\n'] ++ (dataLines []).flatten ++ ['\n'] :=
  ⟨by decide, (levelString_spec.1 9 (by decide)).1, (levelString_spec.1 9 (by decide)).2 "up" []⟩

/-- C6: nested rendering indents by exactly one two-space unit per level and
restores the indentation afterwards: (1) `appendEntry` leaves the indentation
prefix unchanged, so (3) siblings following a sub-block render at the original
indentation; (2) a nested entry emits its key alone on a line at the current
indentation and its sub-block exactly one two-space unit deeper; (4) the
canonical depth-`D` chain renders with exactly `2*i` spaces before the line at
depth `i` and `2*D` spaces before the innermost leaf line. -/
theorem indentation_depth_and_restore :
    (∀ (x : lineBuffer) (e : Entry), (lineBuffer.appendEntry x e).space = x.space)
    ∧ (∀ (x : lineBuffer) (key : String) (sub : Giver),
        (lineBuffer.appendEntry x (Entry.mk key (Value.vGiver sub))).data
          = x.data ++ x.space ++ key.data ++ ['\n']
            ++ renderData (x.space ++ [' ', ' ']) (giverLines sub))
    ∧ (∀ (x : lineBuffer) (a : Entry) (rest : List Entry),
        lineBuffer.appendEntries x (a :: rest)
          = lineBuffer.appendEntries (lineBuffer.appendEntry x a) rest)
    ∧ (∀ D : Nat,
        entryLines (nestChain D)
          = (List.range D).map (fun i => List.replicate (2 * i) ' ' ++ "node\n".data)
            ++ [List.replicate (2 * D) ' ' ++ "leaf - 7\n".data]) := by
  refine ⟨?_, ?_, ?_, ?_⟩
  · intro x e
    rw [appendEntry_eq]
  · intro x key sub
    rw [appendEntry_eq]
    simp [entryLines, renderData_cons, renderData_indentCons, renderData_indent,
      List.append_assoc]
  · intro x a rest
    rfl
  · intro D
    induction D with
    | zero => decide
    | succ n ih =>
        simp only [nestChain, entryLines, giverLines, entriesLines, List.append_nil]
        rw [ih, List.range_succ_eq_map]
        simp only [List.map_cons, List.map_nil, List.map_map, List.map_append, List.cons_append]
        congr 1

/-- C8: the `Err` variant calls the underlying Logger's `Log` with the same
level, message and entry-sources, extended with exactly one synthetic
entry-source appended in final position carrying the error under the reserved
key "err"; instantiated at the pipeline's `Log`, the queued `Data` carries the
original snapshots plus one final single-entry snapshot `[{"err", err}]`. -/
theorem logError_appends_err_entry {α : Type} (logMethod : Int → String → List Giver → α)
    (lvl : Int) (msg : String) (err : Value) (e : List Giver) :
    LogError logMethod lvl msg err e
      = logMethod lvl msg (e ++ [Giver.gEntry (Entry.mk "err" err)])
    ∧ LogError TLog lvl msg err e
      = { Level := lvl, Message := msg,
          Entries := e.map Giver.Entries ++ [[Entry.mk "err" err]] } := by
  exact ⟨rfl, by simp [LogError, TLog, Giver.Entries]⟩

/-- C7: `T.Log` snapshots every supplied entry-source by calling its
`Entries()` synchronously, before the submission is enqueued: the queued
`Data` carries one snapshot per source, in the order given, and the `Log`
transition only appends that `Data` to the queue — it never extends `written`
(it does not call the backend's `Write`). -/
theorem log_snapshot_sync {Raw : Type} (s : PState Raw) (lvl : Int) (msg : String)
    (e : List Giver) :
    (TLog lvl msg e).Entries = e.map Giver.Entries
    ∧ logStep s lvl msg e
        = { s with submitted := s.submitted ++ [TLog lvl msg e],
                   dataChan := s.dataChan ++ [TLog lvl msg e] }
    ∧ (logStep s lvl msg e).written = s.written := by
  exact ⟨rfl, rfl, rfl⟩

theorem gcpEnd_append (a : List Char) (c : Char) (b : List Char) :
    gcpEnd (a ++ c :: b) = a ++ gcpEnd (c :: b) := by
  have hne : c :: b ≠ [] := by simp
  unfold gcpEnd
  rw [List.getLast?_append_of_ne_nil a hne, List.dropLast_append_of_ne_nil a hne]
  split
  · simp [List.append_assoc]
  · simp [List.append_assoc]

mutual

/-- The gcp buffer only ever grows, by a suffix independent of its content. -/
theorem gcpAppend_eq (x : List Char) (g : Giver) :
    gcpAppend x g = x ++ gcpGiverBytes g := by
  match g with
  | .gGcpE src buf => rfl
  | .gEntries l =>
      simp only [gcpAppend, gcpGiverBytes]
      exact gcpAppendEntries_eq x l
  | .gEntry e =>
      simp only [gcpAppend, gcpGiverBytes]
      exact gcpAppendEntry_eq x e
  | .gLineE src b =>
      simp only [gcpAppend, gcpGiverBytes]
      exact gcpAppendEntries_eq x src

theorem gcpAppendEntries_eq (x : List Char) (l : List Entry) :
    gcpAppendEntries x l = x ++ gcpEntriesBytes l := by
  match l with
  | [] => simp [gcpAppendEntries, gcpEntriesBytes]
  | e :: rest =>
      rw [gcpAppendEntries, gcpAppendEntry_eq x e, gcpAppendEntries_eq (x ++ gcpEntryBytes e) rest]
      simp [gcpEntriesBytes, List.append_assoc]

theorem gcpAppendEntry_eq (x : List Char) (e : Entry) :
    gcpAppendEntry x e = x ++ gcpEntryBytes e := by
  match e with
  | .mk key v =>
    match v with
    | .vGiver sub =>
        simp only [gcpAppendEntry, gcpEntryBytes]
        rw [gcpAppend_eq]
        rw [show x ++ jsonQuote key ++ [':'] ++ ['{'] ++ gcpGiverBytes sub
              = (x ++ jsonQuote key ++ [':']) ++ '{' :: gcpGiverBytes sub by
            simp [List.append_assoc]]
        rw [gcpEnd_append]
        simp [List.append_assoc]
    | .vErr m => simp [gcpAppendEntry, gcpEntryBytes, List.append_assoc]
    | .vInt n => simp [gcpAppendEntry, gcpEntryBytes, List.append_assoc]
    | .vStr s => simp [gcpAppendEntry, gcpEntryBytes, List.append_assoc]
    | .vOpaque f em => simp [gcpAppendEntry, gcpEntryBytes, List.append_assoc]

end

/-- C5: in the structured (JSON) backend, a scalar value whose JSON encoding
fails is replaced by a single diagnostic placeholder string — the marshalling
error prefixed with "LOG ERROR: " — for that value only: the siblings before
and after it in the same block contribute exactly their normal renderings, and
the log line as a whole is still produced (shown on a concrete payload). -/
theorem json_error_placeholder_local (x : List Char) (pre post : List Entry)
    (key fmtRepr errMsg : String) :
    gcpAppendEntries x (pre ++ Entry.mk key (Value.vOpaque fmtRepr errMsg) :: post)
      = x ++ gcpEntriesBytes pre
          ++ (jsonQuote key ++ [':'] ++ jsonQuote (logErrPrefix ++ errMsg) ++ [','])
          ++ gcpEntriesBytes post
    ∧ gcpFormat ⟨Info, "m",
          [[Entry.mk "a" (Value.vInt 1),
            Entry.mk "bad" (Value.vOpaque "?" "unsupported type"),
            Entry.mk "b" (Value.vInt 2)]]⟩
        = '{' ::
            ("\"msg\":\"m\",\"a\":1,\"bad\":\"LOG ERROR: unsupported type\",\"b\":2".data
              ++ ['}']) := by
  constructor
  · rw [gcpAppendEntries_eq]
    have h : gcpEntriesBytes (pre ++ Entry.mk key (Value.vOpaque fmtRepr errMsg) :: post)
        = gcpEntriesBytes pre ++ gcpEntryBytes (Entry.mk key (Value.vOpaque fmtRepr errMsg))
          ++ gcpEntriesBytes post := by
      induction pre with
      | nil => simp [gcpEntriesBytes, List.append_assoc]
      | cons p ps ih => simp [gcpEntriesBytes, ih, List.append_assoc]
    rw [h]
    simp [gcpEntryBytes, List.append_assoc]
  · decide

theorem inv_init {Raw : Type} (fmt : Data → Raw) : Inv fmt (initState Raw) := by
  refine ⟨⟨[], rfl, rfl⟩, ?_, ?_, ?_⟩ <;> simp [initState]

/-- Every pipeline transition preserves the invariant. -/
theorem inv_step {Raw : Type} {fmt : Data → Raw} {s s' : PState Raw}
    (hs : Inv fmt s) (hstep : Step fmt s s') : Inv fmt s' := by
  obtain ⟨⟨w, hsub, hwr⟩, hwcc, hdone, hcc⟩ := hs
  cases hstep with
  | log lvl msg e hguard =>
      refine ⟨⟨w, ?_, ?_⟩, ?_, ?_, ?_⟩
      · show s.submitted ++ [TLog lvl msg e]
          = w ++ s.writeChan.map Prod.fst ++ (s.dataChan ++ [TLog lvl msg e])
        rw [hsub]
        simp [List.append_assoc]
      · exact hwr
      · intro h
        exact absurd (hwcc h).1 (by simp [hguard])
      · exact hdone
      · exact hcc
  | dispatch d rest hchan =>
      refine ⟨⟨w, ?_, ?_⟩, ?_, ?_, ?_⟩
      · show s.submitted = w ++ (s.writeChan ++ [(d, false)]).map Prod.fst ++ rest
        rw [hsub, hchan]
        simp [List.append_assoc]
      · exact hwr
      · intro h
        exact absurd (hwcc h).2 (by simp [hchan])
      · intro h
        exact absurd (hwcc (hdone h).1).2 (by simp [hchan])
      · exact hcc
  | formatDone pre d post hchan =>
      refine ⟨⟨w, ?_, ?_⟩, ?_, ?_, ?_⟩
      · show s.submitted = w ++ (pre ++ (d, true) :: post).map Prod.fst ++ s.dataChan
        rw [hsub, hchan]
        simp
      · exact hwr
      · exact hwcc
      · intro h
        exact absurd (hdone h).2 (by simp [hchan])
      · exact hcc
  | writeStep d rest hchan =>
      refine ⟨⟨w ++ [d], ?_, ?_⟩, ?_, ?_, ?_⟩
      · show s.submitted = (w ++ [d]) ++ rest.map Prod.fst ++ s.dataChan
        rw [hsub, hchan]
        simp [List.append_assoc]
      · show s.written ++ [fmt d] = (w ++ [d]).map fmt
        rw [hwr]
        simp
      · exact hwcc
      · intro h
        exact absurd (hdone h).2 (by simp [hchan])
      · exact hcc
  | closeData hguard =>
      refine ⟨⟨w, hsub, hwr⟩, ?_, hdone, hcc⟩
      intro h
      exact ⟨rfl, (hwcc h).2⟩
  | runExit hdc hempty hguard =>
      refine ⟨⟨w, hsub, hwr⟩, ?_, ?_, hcc⟩
      · intro h
        exact ⟨hdc, hempty⟩
      · intro h
        exact ⟨rfl, (hdone h).2⟩
  | writeExit hwc hempty hguard =>
      refine ⟨⟨w, hsub, hwr⟩, hwcc, ?_, ?_⟩
      · intro h
        exact ⟨hwc, hempty⟩
      · intro h
        rfl
  | closeCore hd hguard =>
      exact ⟨⟨w, hsub, hwr⟩, hwcc, hdone, fun h => hd⟩

/-- Any reachable pipeline state satisfies the invariant. -/
theorem reachable_inv {Raw : Type} {fmt : Data → Raw} {s : PState Raw}
    (h : Reachable fmt s) : Inv fmt s := by
  induction h with
  | refl => exact inv_init fmt
  | tail hr hstep ih => exact inv_step ih hstep

/-- After the backend `Close` has run, no pipeline transition is possible at
all: every goroutine has exited and further `Log` calls panic. -/
theorem no_step_after_closed {Raw : Type} {fmt : Data → Raw} {s s' : PState Raw}
    (hs : Inv fmt s) (hcc : s.coreClosed = true) (hstep : Step fmt s s') : False := by
  obtain ⟨_, hwcc, hdone, hccd⟩ := hs
  have hd : s.done = true := hccd hcc
  have hw := hdone hd
  have hc := hwcc hw.1
  cases hstep with
  | log lvl msg e hguard => exact absurd hc.1 (by simp [hguard])
  | dispatch d rest hchan =>
      rw [hc.2] at hchan
      exact absurd hchan (by simp)
  | formatDone pre d post hchan =>
      rw [hw.2] at hchan
      exact absurd hchan (by simp)
  | writeStep d rest hchan =>
      rw [hw.2] at hchan
      exact absurd hchan (by simp)
  | closeData hguard => exact absurd hc.1 (by simp [hguard])
  | runExit hdc hempty hguard => exact absurd hw.1 (by simp [hguard])
  | writeExit hwc hempty hguard => exact absurd hd (by simp [hguard])
  | closeCore hd2 hguard => exact absurd hcc (by simp [hguard])

/-- C1: under every interleaving (in particular regardless of the order in
which the per-submission formatting tasks complete), the sequence of arguments
passed to the backend `Write` is the formatted records of a prefix of the
accepted submissions, in exactly their submission order — each submission is
written at most once, in order — and once the pipeline has drained (`done`),
every accepted submission has been written exactly once, in order. -/
theorem pipeline_write_order {Raw : Type} (fmt : Data → Raw) (s : PState Raw)
    (h : Reachable fmt s) :
    s.written = (s.submitted.take s.written.length).map fmt
    ∧ (s.done = true → s.written = s.submitted.map fmt) := by
  obtain ⟨⟨w, hsub, hwr⟩, hwcc, hdone, _⟩ := reachable_inv h
  constructor
  · rw [hwr, hsub, List.length_map, List.append_assoc, List.take_left]
  · intro hd
    obtain ⟨hwcct, hempty⟩ := hdone hd
    obtain ⟨_, hdc⟩ := hwcc hwcct
    rw [hwr, hsub, hempty, hdc]
    simp

/-- C2: `Close` does not return (the `coreClosed` transition cannot have fired)
until every submission accepted before it has been formatted and written, and
the backend `Close` runs strictly after the last `Write`: in any state where
the backend has been closed, the written sequence is complete, and no further
transition — in particular no `Write` and no second `Close` — is possible. -/
theorem pipeline_close_spec {Raw : Type} (fmt : Data → Raw) (s : PState Raw)
    (h : Reachable fmt s) :
    (s.coreClosed = true → s.done = true ∧ s.written = s.submitted.map fmt)
    ∧ (∀ s' : PState Raw, Step fmt s s' → s.coreClosed = true →
        s'.written = s.written ∧ s'.coreClosed = true) := by
  have hinv := reachable_inv h
  constructor
  · intro hcc
    obtain ⟨⟨w, hsub, hwr⟩, hwcc, hdone, hccd⟩ := hinv
    have hd := hccd hcc
    refine ⟨hd, ?_⟩
    obtain ⟨hwcct, hempty⟩ := hdone hd
    obtain ⟨_, hdc⟩ := hwcc hwcct
    rw [hwr, hsub, hempty, hdc]
    simp
  · intro s' hstep hcc
    exact (no_step_after_closed hinv hcc hstep).elim

/-- A concrete execution of the pipeline relation, ending drained but with the
backend not yet closed. -/
theorem reach_st7 : Reachable exFmt st7 := by
  have h1 : Step exFmt st0 st1 := Step.log st0 2 "m" [] rfl
  have h2 : Step exFmt st1 st2 := Step.dispatch st1 exData [] rfl
  have h3 : Step exFmt st2 st3 := Step.formatDone st2 [] exData [] rfl
  have h4 : Step exFmt st3 st4 := Step.writeStep st3 exData [] rfl
  have h5 : Step exFmt st4 st5 := Step.closeData st4 rfl
  have h6 : Step exFmt st5 st6 := Step.runExit st5 rfl rfl rfl
  have h7 : Step exFmt st6 st7 := Step.writeExit st6 rfl rfl rfl
  exact .tail (.tail (.tail (.tail (.tail (.tail (.tail .refl h1) h2) h3) h4) h5) h6) h7

/-- The concrete execution extended by the backend close. -/
theorem reach_st8 : Reachable exFmt st8 :=
  .tail reach_st7 (Step.closeCore st7 rfl rfl)

/-- Witness for pipeline_write_order on the concrete drained execution. -/
theorem pipeline_write_order_witness :
    Reachable exFmt st7
    ∧ st7.written = (st7.submitted.take st7.written.length).map exFmt
    ∧ (st7.done = true → st7.written = st7.submitted.map exFmt) :=
  ⟨reach_st7, (pipeline_write_order exFmt st7 reach_st7).1,
    (pipeline_write_order exFmt st7 reach_st7).2⟩

/-- Witness for pipeline_close_spec on the concrete closed execution. -/
theorem pipeline_close_spec_witness :
    Reachable exFmt st8
    ∧ (st8.coreClosed = true → st8.done = true ∧ st8.written = st8.submitted.map exFmt)
    ∧ (∀ s' : PState Int, Step exFmt st8 s' → st8.coreClosed = true →
        s'.written = st8.written ∧ s'.coreClosed = true) :=
  ⟨reach_st8, (pipeline_close_spec exFmt st8 reach_st8).1,
    (pipeline_close_spec exFmt st8 reach_st8).2⟩

end BlitzLog
